import Mathlib

/-!
# Verification of the CoReview overlay-merge / range-parsing / annotation core

Shallow embedding of the overlay merge engine, the line-range parser, the
message-bus correlation logic, the identifier generator and the persistence
layer of the CoReview extension, together with proofs of the specified
properties.

JavaScript `Map` objects (insertion-ordered, unique keys) are modelled as
association lists `List (String × α)` with in-place update semantics.
-/

set_option maxHeartbeats 1000000

namespace CoReview

/-! ## JS `Map` model -/

/-- `Map.get k` : first entry with key `k`. -/
def mapGet {α : Type} (m : List (String × α)) (k : String) : Option α :=
  (m.find? (fun p => p.1 == k)).map (·.2)

/-- `Map.set k v` : replace in place when the key is present, else append
(JS `Map` keeps the original insertion position on overwrite). -/
def mapSet {α : Type} (m : List (String × α)) (k : String) (v : α) :
    List (String × α) :=
  if (m.find? (fun p => p.1 == k)).isSome then
    m.map (fun p => if p.1 == k then (k, v) else p)
  else
    m ++ [(k, v)]

/-- `Map.delete k`. -/
def mapDelete {α : Type} (m : List (String × α)) (k : String) :
    List (String × α) :=
  m.filter (fun p => !(p.1 == k))

/-- `Map.has k`. -/
def mapHas {α : Type} (m : List (String × α)) (k : String) : Bool :=
  (m.find? (fun p => p.1 == k)).isSome

/-- `Array.from(m.values())` : values in insertion order. -/
def mapValues {α : Type} (m : List (String × α)) : List α :=
  m.map (·.2)

/-! ## Data model (`shared/types.ts`) -/

/-- `ReviewFieldValue`: `{ value, showName }`.  Either component may be
absent/null in the source (`{}` is used as an empty field value). -/
structure ReviewFieldValue where
  value : Option String
  showName : Option String
deriving DecidableEq, Repr

/-- A review record: `id` plus its `values` object, modelled as an
association list from column code to field value. -/
structure ReviewCommentItem where
  id : String
  values : List (String × ReviewFieldValue)
deriving DecidableEq, Repr

/-! ## C1 / C4 (webview side): `mergedReviews` (webview table component)

Source: the `useMemo` computing `mergedReviews` — overlay the edit map on the
original rows, then put the addition values first. -/

/-- The webview merge: `[...addData.values(), ...originalReviews.map(r =>
editData.get(r.id) ?? r)]`. -/
def mergedReviews (originalReviews : List ReviewCommentItem)
    (editData : List (String × ReviewCommentItem))
    (addData : List (String × ReviewCommentItem)) : List ReviewCommentItem :=
  let processedOriginalReviews := originalReviews.map (fun review =>
    match mapGet editData review.id with
    | some editedRow => editedRow
    | none => review)
  let addDataArray := mapValues addData
  addDataArray ++ processedOriginalReviews

/-! ## C4 (provider side): `computeMergedComments` (`ReviewViewProvider.ts`) -/

/-- The provider merge: build a `Map` keyed by base ids, then `set` every
edit-overlay entry into it, and return the values. -/
def computeMergedComments (base : List ReviewCommentItem)
    (edit : Option (List (String × ReviewCommentItem))) :
    List ReviewCommentItem :=
  let m0 : List (String × ReviewCommentItem) :=
    base.foldl (fun m c => mapSet m c.id c) []
  let m1 : List (String × ReviewCommentItem) :=
    match edit with
    | some e => e.foldl (fun m p => mapSet m p.1 p.2) m0
    | none => m0
  mapValues m1

/-! ## Basic `Map` lemmas -/

theorem mapGet_eq_some {α : Type} {m : List (String × α)} {k : String} {v : α}
    (h : mapGet m k = some v) : (k, v) ∈ m := by
  unfold mapGet at h
  cases hf : m.find? (fun p => p.1 == k) with
  | none => rw [hf] at h; simp at h
  | some p =>
    rw [hf] at h
    simp only [Option.map_some', Option.some.injEq] at h
    have hm := List.mem_of_find?_eq_some hf
    have hk := List.find?_some hf
    simp only [beq_iff_eq] at hk
    obtain ⟨a, b⟩ := p
    simp only at hk h
    subst hk; subst h
    exact hm

theorem find_mapDelete_self {α : Type} (m : List (String × α)) (k : String) :
    (mapDelete m k).find? (fun p => p.1 == k) = none := by
  rw [List.find?_eq_none]
  intro x hx
  have hpx := List.of_mem_filter hx
  simp only [Bool.not_eq_true'] at hpx
  simp [hpx]

theorem mapGet_mapDelete_self {α : Type} (m : List (String × α)) (k : String) :
    mapGet (mapDelete m k) k = none := by
  unfold mapGet
  rw [find_mapDelete_self]
  rfl

theorem mapHas_mapDelete_self {α : Type} (m : List (String × α)) (k : String) :
    mapHas (mapDelete m k) k = false := by
  unfold mapHas
  rw [find_mapDelete_self]
  rfl

theorem mapHas_mapSet_self {α : Type} (m : List (String × α)) (k : String)
    (v : α) : mapHas (mapSet m k v) k = true := by
  unfold mapHas mapSet
  by_cases h : (m.find? (fun p => p.1 == k)).isSome
  · rw [if_pos h]
    rw [List.find?_isSome] at h ⊢
    obtain ⟨x, hx, hxk⟩ := h
    refine ⟨(k, v), ?_, by simp⟩
    have hmm := List.mem_map_of_mem (fun p => if p.1 == k then (k, v) else p) hx
    simpa [hxk] using hmm
  · rw [if_neg h]
    rw [List.find?_isSome]
    exact ⟨(k, v), by simp, by simp⟩

/-! ## C1: contract of the webview merge -/

/-- **C1.** `mergedReviews` returns the additions' values in insertion order
followed by, for each base record `r` in base order, the overlay row for
`r.id` when present and `r` otherwise; and when the addition map holds the
single entry `"N1"`, the output id sequence is `"N1"` followed by the base
ids in their original order (assuming overlay rows keep the id they are
stored under). -/
theorem mergedReviews_contract (base : List ReviewCommentItem)
    (edit adds : List (String × ReviewCommentItem))
    (hedit : ∀ p ∈ edit, (p.2).id = p.1) (n1 : ReviewCommentItem)
    (hn1 : n1.id = "N1") :
    mergedReviews base edit adds =
      mapValues adds ++ base.map (fun r => (mapGet edit r.id).getD r) ∧
    (mergedReviews base edit [("N1", n1)]).map (·.id) =
      "N1" :: base.map (·.id) := by
  constructor
  · simp only [mergedReviews]
    congr 1
    apply List.map_congr_left
    intro r _
    cases mapGet edit r.id <;> rfl
  · simp only [mergedReviews, mapValues, List.map_append, List.map_map,
      List.map_cons, List.map_nil, List.singleton_append, hn1]
    congr 1
    apply List.map_congr_left
    intro r _
    simp only [Function.comp_apply]
    cases h : mapGet edit r.id with
    | none => rfl
    | some e =>
      have hmem := mapGet_eq_some h
      exact hedit _ hmem

/-- Concrete sample field value. -/
def sampleFV (s : String) : ReviewFieldValue := ⟨some s, some s⟩

/-- A sample base record. -/
def sampleRec1 : ReviewCommentItem := ⟨"1", [("comment", sampleFV "a")]⟩

/-- An overlay row for `sampleRec1`. -/
def sampleRec1Edit : ReviewCommentItem := ⟨"1", [("comment", sampleFV "b")]⟩

/-- A sample locally-added record with generator id `"N1"`. -/
def sampleRecN1 : ReviewCommentItem := ⟨"N1", [("comment", sampleFV "new")]⟩

/-- Witness for C1 at a concrete input. -/
theorem mergedReviews_contract_witness :
    mergedReviews [sampleRec1] [("1", sampleRec1Edit)] [("N1", sampleRecN1)] =
      mapValues [("N1", sampleRecN1)] ++
        [sampleRec1].map (fun r =>
          (mapGet [("1", sampleRec1Edit)] r.id).getD r) ∧
    (mergedReviews [sampleRec1] [("1", sampleRec1Edit)]
        [("N1", sampleRecN1)]).map (·.id) =
      "N1" :: [sampleRec1].map (·.id) :=
  mergedReviews_contract [sampleRec1] [("1", sampleRec1Edit)]
    [("N1", sampleRecN1)] (by decide) sampleRecN1 (by decide)

/-! ## C2: the range parser (`parseRangesForDocument`, `ReviewViewProvider.ts`)

The source splits the free text on `;`, trims each segment, drops empty
segments, and matches each remaining segment against
`^(\d+)\s*[~～]\s*(\d+)$` (range, with swap normalization) or `^(\d+)$`
(single line); parsed 1-based lines are clamped into `[0, lineCount-1]`.
Lines are modelled as `Int` to mirror the JS arithmetic exactly. -/

/-- `String.prototype.split(sep)` on a character list (JS semantics:
`"".split(c) = [""]`, separators at the ends produce empty segments). -/
def splitOnChar (sep : Char) : List Char → List (List Char)
  | [] => [[]]
  | c :: rest =>
    match splitOnChar sep rest with
    | [] => [[]]
    | s :: ss => if c = sep then [] :: s :: ss else (c :: s) :: ss

/-- `String.prototype.trim()` on a character list. -/
def trimChars (cs : List Char) : List Char :=
  ((cs.dropWhile Char.isWhitespace).reverse.dropWhile Char.isWhitespace).reverse

/-- Decimal value of a digit run (`parseInt(digits, 10)`). -/
def digitsToNat (cs : List Char) : Nat :=
  cs.foldl (fun a c => 10 * a + (c.toNat - '0'.toNat)) 0

/-- Full match of `^(\d+)\s*[~～]\s*(\d+)$` returning the two numbers. -/
def matchRangeSeg (cs : List Char) : Option (Nat × Nat) :=
  let d1 := cs.takeWhile Char.isDigit
  let rest1 := cs.dropWhile Char.isDigit
  if d1.isEmpty then none
  else
    match rest1.dropWhile Char.isWhitespace with
    | [] => none
    | t :: rest3 =>
      if t = '~' ∨ t = '～' then
        let rest4 := rest3.dropWhile Char.isWhitespace
        let d2 := rest4.takeWhile Char.isDigit
        let rest5 := rest4.dropWhile Char.isDigit
        if d2.isEmpty then none
        else if rest5.isEmpty then some (digitsToNat d1, digitsToNat d2)
        else none
      else none

/-- Full match of `^(\d+)$`. -/
def matchSingleSeg (cs : List Char) : Option Nat :=
  let d := cs.takeWhile Char.isDigit
  if d.isEmpty then none
  else if (cs.dropWhile Char.isDigit).isEmpty then some (digitsToNat d)
  else none

/-- 1-based line `n` clamped to `[0, lineCount-1]` after the `-1` shift:
`Math.max(0, Math.min(lineCount - 1, n - 1))`. -/
def clampLine (lineCount n : Int) : Int :=
  max 0 (min (lineCount - 1) (n - 1))

/-- One segment of the grammar: try the range shape first, then the single
shape, swapping a reversed range.  `none` means the segment is silently
skipped. -/
def parseSegment (lineCount : Int) (seg : List Char) : Option (Int × Int) :=
  match matchRangeSeg seg with
  | some (a, b) =>
    let se : Int × Int := if (b : Int) < a then ((b : Int), (a : Int))
      else ((a : Int), (b : Int))
    some (clampLine lineCount se.1, clampLine lineCount se.2)
  | none =>
    match matchSingleSeg seg with
    | some n => some (clampLine lineCount n, clampLine lineCount n)
    | none => none

/-- `parseRangesForDocument`: the 0-based `(startLine, endLine)` pairs of a
line-range text against a document with `lineCount` lines. -/
def parseRangesForDocument (lineCount : Int) (lineRange : String) :
    List (Int × Int) :=
  let segments := ((splitOnChar ';' lineRange.toList).map trimChars).filter
    (fun s => !s.isEmpty)
  segments.filterMap (parseSegment lineCount)

theorem clampLine_bounds (lineCount n : Int) (h : 1 ≤ lineCount) :
    0 ≤ clampLine lineCount n ∧ clampLine lineCount n ≤ lineCount - 1 := by
  unfold clampLine
  constructor
  · exact le_max_left 0 _
  · rw [max_le_iff]
    exact ⟨by omega, min_le_left _ _⟩

/-- **C2.** The range parser splits on `;`, trims, skips unparseable
segments, swaps reversed ranges, clamps into `[0, lineCount-1]`, and keeps
segment order; every emitted pair is within the document, and the five
specified examples parse as stated. -/
theorem parseRangesForDocument_spec (lineCount : Int) (text : String)
    (h : 1 ≤ lineCount) :
    (∀ p ∈ parseRangesForDocument lineCount text,
      0 ≤ p.1 ∧ p.1 ≤ lineCount - 1 ∧ 0 ≤ p.2 ∧ p.2 ≤ lineCount - 1) ∧
    parseRangesForDocument 100 "4 ~ 8" = [(3, 7)] ∧
    parseRangesForDocument 100 "8 ~ 4" = [(3, 7)] ∧
    parseRangesForDocument 100 "4 ~ 8; 10" = [(3, 7), (9, 9)] ∧
    parseRangesForDocument 100 "abc" = [] ∧
    parseRangesForDocument 5 "200" = [(4, 4)] := by
  refine ⟨?_, by decide, by decide, by decide, by decide, by decide⟩
  intro p hp
  unfold parseRangesForDocument at hp
  simp only [List.mem_filterMap] at hp
  obtain ⟨seg, _, hseg⟩ := hp
  unfold parseSegment at hseg
  cases hr : matchRangeSeg seg with
  | some ab =>
    obtain ⟨a, b⟩ := ab
    rw [hr] at hseg
    simp only [Option.some.injEq] at hseg
    by_cases hlt : (b : Int) < a
    · rw [if_pos hlt] at hseg
      rw [← hseg]
      have h1 := clampLine_bounds lineCount b h
      have h2 := clampLine_bounds lineCount a h
      exact ⟨h1.1, h1.2, h2.1, h2.2⟩
    · rw [if_neg hlt] at hseg
      rw [← hseg]
      have h1 := clampLine_bounds lineCount a h
      have h2 := clampLine_bounds lineCount b h
      exact ⟨h1.1, h1.2, h2.1, h2.2⟩
  | none =>
    rw [hr] at hseg
    cases hs : matchSingleSeg seg with
    | some n =>
      rw [hs] at hseg
      simp only [Option.some.injEq] at hseg
      rw [← hseg]
      have h1 := clampLine_bounds lineCount n h
      exact ⟨h1.1, h1.2, h1.1, h1.2⟩
    | none => rw [hs] at hseg; simp at hseg

/-- Witness for C2 at a concrete input. -/
theorem parseRangesForDocument_spec_witness :
    (∀ p ∈ parseRangesForDocument 100 "4 ~ 8; 10",
      0 ≤ p.1 ∧ p.1 ≤ 100 - 1 ∧ 0 ≤ p.2 ∧ p.2 ≤ 100 - 1) ∧
    parseRangesForDocument 100 "4 ~ 8" = [(3, 7)] ∧
    parseRangesForDocument 100 "8 ~ 4" = [(3, 7)] ∧
    parseRangesForDocument 100 "4 ~ 8; 10" = [(3, 7), (9, 9)] ∧
    parseRangesForDocument 100 "abc" = [] ∧
    parseRangesForDocument 5 "200" = [(4, 4)] :=
  parseRangesForDocument_spec 100 "4 ~ 8; 10" (by decide)

/-! ## C3: message-bus correlation

Responder side: `handleAsyncMessage` (`ReviewViewProvider.ts`) wraps every
asynchronous domain handler in try/catch/finally and always posts the
correlation response when a callback id is attached and the view exists.
Caller side: `handleMessage` (`webview/common/services/vscodeService.ts`)
dispatches by message type; a `cb:`-prefixed type invokes the registered
one-shot handler and deletes it from the registry. -/

/-- The correlation response envelope `{ type, payload: {success, error} }`. -/
structure ResponseEnvelope where
  type : String
  success : Bool
  error : Option String
deriving DecidableEq, Repr

/-- Responder wrapper: the domain handler either returns or throws
(`Except String Unit`); the posted responses are returned.  An absent or
empty (falsy) callback id, or a missing view, posts nothing. -/
def handleAsyncMessage (callbackId : Option String) (hasView : Bool)
    (handlerResult : Except String Unit) : List ResponseEnvelope :=
  let success := match handlerResult with
    | .ok _ => true
    | .error _ => false
  let errorMessage : Option String := match handlerResult with
    | .ok _ => none
    | .error m => some m
  match callbackId with
  | some cid =>
    if cid != "" && hasView then
      [{ type := cid, success := success, error := errorMessage }]
    else []
  | none => []

/-- `message.type.startsWith('cb:')` etc., on character lists. -/
def strBeginsWith (s pre : String) : Bool :=
  pre.toList.isPrefixOf s.toList

/-- The webview bus registry: one handler per message type
(`messageHandlers`), plus the multi-subscriber auth-state topic.  Handlers
are identified by opaque tokens (`Nat`). -/
structure WebviewBusState where
  messageHandlers : List (String × Nat)
  authStateHandlers : List Nat
deriving DecidableEq, Repr

/-- Caller-side dispatch of one inbound envelope: returns the new registry
state and the handler tokens invoked (in order).  `auth-state` broadcasts to
all auth subscribers; a `cb:`-prefixed type is a one-shot callback, deleted
after its single invocation; other types dispatch without deregistration. -/
def handleMessage (st : WebviewBusState) (msgType : String) :
    WebviewBusState × List Nat :=
  if msgType = "auth-state" then (st, st.authStateHandlers)
  else
    match mapGet st.messageHandlers msgType with
    | some h =>
      if strBeginsWith msgType "cb:" then
        ({ st with messageHandlers := mapDelete st.messageHandlers msgType },
          [h])
      else (st, [h])
    | none => (st, [])

theorem strBeginsWith_cb_ne_empty {s : String}
    (h : strBeginsWith s "cb:" = true) : (s != "") = true := by
  have hne : s ≠ "" := by
    intro he
    rw [he] at h
    exact absurd h (by decide)
  simpa using hne

theorem strBeginsWith_cb_ne_auth {s : String}
    (h : strBeginsWith s "cb:" = true) : s ≠ "auth-state" := by
  intro he
  rw [he] at h
  exact absurd h (by decide)

/-- **C3.** When the responder's domain handler throws, the caller still
receives exactly one response whose type is the correlation id and whose
payload is `{success: false, error: message}`; delivering it invokes the
registered one-shot callback and deletes it from the registry, so a second
response with the same correlation id invokes nothing and changes nothing. -/
theorem correlation_response_once (cid : String) (hTok : Nat) (msg : String)
    (st : WebviewBusState)
    (hcb : strBeginsWith cid "cb:" = true)
    (hreg : mapGet st.messageHandlers cid = some hTok) :
    handleAsyncMessage (some cid) true (.error msg) =
      [{ type := cid, success := false, error := some msg }] ∧
    (handleMessage st cid).2 = [hTok] ∧
    mapGet (handleMessage st cid).1.messageHandlers cid = none ∧
    handleMessage (handleMessage st cid).1 cid =
      ((handleMessage st cid).1, []) := by
  have hne := strBeginsWith_cb_ne_auth hcb
  have hst1 : handleMessage st cid =
      ({ st with messageHandlers := mapDelete st.messageHandlers cid },
        [hTok]) := by
    simp [handleMessage, hne, hreg, hcb]
  refine ⟨?_, ?_, ?_, ?_⟩
  · simp [handleAsyncMessage, strBeginsWith_cb_ne_empty hcb]
  · rw [hst1]
  · rw [hst1]
    exact mapGet_mapDelete_self _ _
  · rw [hst1]
    simp [handleMessage, hne, mapGet_mapDelete_self]

/-- Witness for C3 at a concrete input. -/
theorem correlation_response_once_witness :
    handleAsyncMessage (some "cb:17") true (.error "boom") =
      [{ type := "cb:17", success := false, error := some "boom" }] ∧
    (handleMessage ⟨[("cb:17", 5)], [9]⟩ "cb:17").2 = [5] ∧
    mapGet (handleMessage ⟨[("cb:17", 5)], [9]⟩ "cb:17").1.messageHandlers
      "cb:17" = none ∧
    handleMessage (handleMessage ⟨[("cb:17", 5)], [9]⟩ "cb:17").1 "cb:17" =
      ((handleMessage ⟨[("cb:17", 5)], [9]⟩ "cb:17").1, []) :=
  correlation_response_once "cb:17" 5 "boom" ⟨[("cb:17", 5)], [9]⟩
    (by decide) (by decide)

/-! ## C4: orphaned edit-overlay entries

Claim C4 says an overlay entry whose id is absent from `base` contributes no
record to the merged list.  That is true of the webview merge
(`mergedReviews`), but the provider merge (`computeMergedComments`) `set`s
every overlay entry into the id-keyed map, so an orphaned entry is appended
to the output after the base-derived records instead of being dropped. -/

theorem mapSet_of_not_has {α : Type} {m : List (String × α)} {k : String}
    (v : α) (h : mapHas m k = false) : mapSet m k v = m ++ [(k, v)] := by
  unfold mapHas at h
  unfold mapSet
  rw [h]
  simp

theorem mapHas_append {α : Type} (m m' : List (String × α)) (k : String) :
    mapHas (m ++ m') k = (mapHas m k || mapHas m' k) := by
  unfold mapHas
  rw [List.find?_append]
  cases m.find? (fun p => p.1 == k) <;> simp [Option.orElse]

theorem mapHas_eq_false_iff {α : Type} (m : List (String × α)) (k : String) :
    mapHas m k = false ↔ ∀ p ∈ m, p.1 ≠ k := by
  unfold mapHas
  constructor
  · intro h p hp hk
    have hs : (m.find? (fun q => q.1 == k)).isSome = true :=
      List.find?_isSome.mpr ⟨p, hp, by simp [hk]⟩
    rw [h] at hs
    exact Bool.false_ne_true hs
  · intro h
    cases hs : (m.find? (fun q => q.1 == k)).isSome
    · rfl
    · exfalso
      obtain ⟨p, hp, hpk⟩ := List.find?_isSome.mp hs
      simp only [beq_iff_eq] at hpk
      exact h p hp hpk

/-- Folding `mapSet` over entries with fresh, pairwise distinct keys is list
append. -/
theorem foldl_mapSet_fresh {α : Type} :
    ∀ (l : List (String × α)) (m : List (String × α)),
      (l.map (·.1)).Nodup → (∀ p ∈ l, mapHas m p.1 = false) →
      l.foldl (fun m p => mapSet m p.1 p.2) m = m ++ l := by
  intro l
  induction l with
  | nil => intro m _ _; simp
  | cons p rest ih =>
    intro m hnodup hfresh
    rw [List.map_cons, List.nodup_cons] at hnodup
    simp only [List.foldl_cons]
    rw [mapSet_of_not_has p.2 (hfresh p (List.mem_cons_self p rest))]
    rw [ih (m ++ [(p.1, p.2)]) hnodup.2]
    · simp
    · intro q hq
      rw [mapHas_append]
      rw [hfresh q (List.mem_cons_of_mem p hq)]
      simp only [Bool.false_or]
      rw [mapHas_eq_false_iff]
      intro r hr
      simp only [List.mem_singleton] at hr
      subst hr
      have hq1 : q.1 ∈ rest.map (·.1) := List.mem_map_of_mem _ hq
      intro he
      exact hnodup.1 (he ▸ hq1)

/-- Counterexample to C4 as stated: the provider merge does NOT exclude an
edit-overlay entry whose id (`"x0"`) is absent from the (empty) base list —
the orphaned record appears in the merge output. -/
theorem computeMergedComments_includes_orphan :
    computeMergedComments [] (some [("x0", sampleRec1)]) = [sampleRec1] := by
  decide

/-- **C4 (amended).** An orphaned edit-overlay entry contributes no record to
the webview merge (`mergedReviews` behaves as if the overlay were empty when
every entry is orphaned), while the provider merge (`computeMergedComments`)
appends the orphaned overlay records after the base-derived records instead
of dropping them; in neither case is the orphan fatal. -/
theorem orphan_overlay_merge (base : List ReviewCommentItem)
    (edit adds : List (String × ReviewCommentItem))
    (hnodupBase : (base.map (·.id)).Nodup)
    (hnodupEdit : (edit.map (·.1)).Nodup)
    (horphan : ∀ p ∈ edit, ∀ r ∈ base, r.id ≠ p.1) :
    mergedReviews base edit adds = mergedReviews base [] adds ∧
    computeMergedComments base (some edit) = base ++ mapValues edit := by
  constructor
  · simp only [mergedReviews]
    congr 1
    apply List.map_congr_left
    intro r hr
    have hnone : mapGet edit r.id = none := by
      unfold mapGet
      rw [List.find?_eq_none.mpr]
      · rfl
      · intro p hp
        simp only [beq_iff_eq]
        intro he
        exact horphan p hp r hr he.symm
    rw [hnone]
    rfl
  · simp only [computeMergedComments]
    have hfold : base.foldl (fun m c => mapSet m c.id c) [] =
        base.map (fun c => (c.id, c)) := by
      rw [← List.foldl_map (fun c => (c.id, c))
        (fun m (p : String × ReviewCommentItem) => mapSet m p.1 p.2)]
      rw [foldl_mapSet_fresh]
      · simp
      · simpa [List.map_map, Function.comp] using hnodupBase
      · intro p _
        rfl
    rw [hfold]
    rw [foldl_mapSet_fresh edit (base.map fun c => (c.id, c)) hnodupEdit]
    · simp only [mapValues, List.map_append, List.map_map]
      have hid : List.map ((fun x : String × ReviewCommentItem => x.2) ∘
          fun c : ReviewCommentItem => (c.id, c)) base = base := by
        apply List.map_id''
        intro c
        rfl
      rw [hid]
    · intro p hp
      rw [mapHas_eq_false_iff]
      intro q hq
      obtain ⟨r, hr, hrq⟩ := List.mem_map.mp hq
      rw [← hrq]
      exact horphan p hp r hr

/-- Witness for the amended C4 at a concrete input. -/
theorem orphan_overlay_merge_witness :
    mergedReviews [sampleRec1] [("x9", sampleRecN1)] [] =
      mergedReviews [sampleRec1] [] [] ∧
    computeMergedComments [sampleRec1] (some [("x9", sampleRecN1)]) =
      [sampleRec1] ++ mapValues [("x9", sampleRecN1)] :=
  orphan_overlay_merge [sampleRec1] [("x9", sampleRecN1)] []
    (by decide) (by decide) (by decide)

/-! ## C5: `updateMyData` (webview table component) — overlay self-pruning -/

/-- `String.prototype.trim()`. -/
def strTrim (s : String) : String := ⟨trimChars s.toList⟩

/-- `EnumInputType` (`shared/constants.ts`). -/
inductive EnumInputType
  | TEXT
  | COMBO_BOX
  | TEXTAREA
  | DATE
deriving DecidableEq, Repr

/-- `EnumOption` (`shared/types.ts`): a combo-box option. -/
structure EnumOption where
  value : String
  showName : String
deriving DecidableEq, Repr

/-- The slice of `ColumnConfig` that `updateMyData` reads. -/
structure ColumnConfig where
  columnCode : String
  inputType : EnumInputType
  required : Bool
  enumValues : Option (List EnumOption)
deriving DecidableEq, Repr

/-- The working copy produced by `updateMyData`: the existing overlay row for
`row.id` (or the row itself) with the edited column replaced according to the
column's input type (combo boxes store the matching option or `{}`; other
types store `{value: trimValue, showName: trimValue}`). -/
def appliedRow (value : String) (row : ReviewCommentItem)
    (col : ColumnConfig) (editData : List (String × ReviewCommentItem)) :
    ReviewCommentItem :=
  let trimValue := strTrim value
  let existingRow := (mapGet editData row.id).getD row
  let newFieldValue : ReviewFieldValue :=
    match col.inputType with
    | .COMBO_BOX =>
      match (col.enumValues.getD []).find?
          (fun item => item.showName == value) with
      | some item => ⟨some item.value, some item.showName⟩
      | none => ⟨none, none⟩
    | _ => ⟨some trimValue, some trimValue⟩
  { existingRow with
    values := mapSet existingRow.values col.columnCode newFieldValue }

/-- `updateMyData`: returns the new `(editData, addData)` pair.  A required
column with a blank value is a no-op; an addition row is written into
`addData` unconditionally; a base row is compared against the original by
deep equality — equal means the overlay entry is deleted, different means it
is stored. -/
def updateMyData (value : String) (row : ReviewCommentItem)
    (col : ColumnConfig) (originalReviews : List ReviewCommentItem)
    (editData addData : List (String × ReviewCommentItem)) :
    List (String × ReviewCommentItem) × List (String × ReviewCommentItem) :=
  let trimValue := strTrim value
  if col.required && trimValue == "" then (editData, addData)
  else
    let existingRow := appliedRow value row col editData
    let originalRow := originalReviews.find? (fun item => item.id == row.id)
    let isNewRow := mapHas addData row.id
    if isNewRow then
      (editData, mapSet addData row.id existingRow)
    else
      let isSame := match originalRow with
        | some o => o.values == existingRow.values
        | none => false
      if isSame then (mapDelete editData row.id, addData)
      else (mapSet editData row.id existingRow, addData)

/-- Overlay-state characterization of one `updateMyData` call on a base row:
the new overlay holds `row.id` iff the working copy's field values differ
from the original row's, and `addData` is untouched. -/
theorem updateMyData_overlay_iff
    (value : String) (row : ReviewCommentItem) (col : ColumnConfig)
    (origs : List ReviewCommentItem)
    (editData addData : List (String × ReviewCommentItem))
    (orig : ReviewCommentItem)
    (hfind : origs.find? (fun item => item.id == row.id) = some orig)
    (hnotadd : mapHas addData row.id = false)
    (hguard : ¬(col.required = true ∧ strTrim value = "")) :
    (mapHas (updateMyData value row col origs editData addData).1 row.id =
      true ↔ (appliedRow value row col editData).values ≠ orig.values) ∧
    (updateMyData value row col origs editData addData).2 = addData := by
  have hg : (col.required && (strTrim value == "")) = false := by
    cases hcr : col.required
    · rfl
    · simp only [Bool.true_and]
      rw [beq_eq_false_iff_ne]
      intro he
      exact hguard ⟨hcr, he⟩
  simp only [updateMyData]
  rw [hg]
  simp only [Bool.false_eq_true, if_false, hfind, hnotadd]
  cases heq : orig.values == (appliedRow value row col editData).values with
  | true =>
    rw [beq_iff_eq] at heq
    simp only [if_true]
    refine ⟨?_, trivial⟩
    rw [mapHas_mapDelete_self]
    simp [heq]
  | false =>
    rw [beq_eq_false_iff_ne] at heq
    simp only [Bool.false_eq_true, if_false]
    refine ⟨?_, trivial⟩
    rw [mapHas_mapSet_self]
    simp only [true_iff]
    exact fun he => heq he.symm

/-- **C5.** After `updateMyData` on a base record, an overlay entry for
`row.id` exists iff the resulting field values differ from the base record's
(deep structural equality); in particular a second edit that restores the
original values leaves the overlay without `row.id`. -/
theorem updateMyData_overlay_pruning
    (value : String) (row : ReviewCommentItem) (col : ColumnConfig)
    (origs : List ReviewCommentItem)
    (editData addData : List (String × ReviewCommentItem))
    (orig : ReviewCommentItem)
    (hfind : origs.find? (fun item => item.id == row.id) = some orig)
    (hnotadd : mapHas addData row.id = false)
    (hguard : ¬(col.required = true ∧ strTrim value = "")) :
    (mapHas (updateMyData value row col origs editData addData).1 row.id =
      true ↔ (appliedRow value row col editData).values ≠ orig.values) ∧
    (∀ value2 (col2 : ColumnConfig),
      ¬(col2.required = true ∧ strTrim value2 = "") →
      (appliedRow value2 row col2
        (updateMyData value row col origs editData addData).1).values =
        orig.values →
      mapHas (updateMyData value2 row col2 origs
        (updateMyData value row col origs editData addData).1 addData).1
        row.id = false) := by
  obtain ⟨hiff, _⟩ := updateMyData_overlay_iff value row col origs editData
    addData orig hfind hnotadd hguard
  refine ⟨hiff, ?_⟩
  intro value2 col2 hguard2 hrestore
  obtain ⟨hiff2, _⟩ := updateMyData_overlay_iff value2 row col2 origs
    (updateMyData value row col origs editData addData).1 addData orig hfind
    hnotadd hguard2
  cases hh : mapHas (updateMyData value2 row col2 origs
      (updateMyData value row col origs editData addData).1 addData).1
      row.id with
  | false => rfl
  | true => exact absurd hrestore (hiff2.mp hh)

/-- Witness for C5 at a concrete input: editing the `comment` column of
`sampleRec1` to `"b"` (overlay appears), then back to `"a"` (overlay
pruned). -/
theorem updateMyData_overlay_pruning_witness :
    (mapHas (updateMyData "b" sampleRec1
        ⟨"comment", .TEXT, false, none⟩ [sampleRec1] [] []).1
      sampleRec1.id = true ↔
      (appliedRow "b" sampleRec1 ⟨"comment", .TEXT, false, none⟩ []).values ≠
        sampleRec1.values) ∧
    (∀ value2 (col2 : ColumnConfig),
      ¬(col2.required = true ∧ strTrim value2 = "") →
      (appliedRow value2 sampleRec1 col2
        (updateMyData "b" sampleRec1 ⟨"comment", .TEXT, false, none⟩
          [sampleRec1] [] []).1).values = sampleRec1.values →
      mapHas (updateMyData value2 sampleRec1 col2 [sampleRec1]
        (updateMyData "b" sampleRec1 ⟨"comment", .TEXT, false, none⟩
          [sampleRec1] [] []).1 []).1 sampleRec1.id = false) :=
  updateMyData_overlay_pruning "b" sampleRec1
    ⟨"comment", .TEXT, false, none⟩ [sampleRec1] [] [] sampleRec1
    (by decide) (by decide) (by decide)

/-! ## C7 / C9 / C10: persistence layer (`StateService.ts`, `TableService.ts`)

`StateService` keeps an in-memory state object and mirrors every setter into
the durable `memento`; both sides are modelled as fields of one record. -/

/-- `QueryContext` (`shared/types.ts`). -/
structure QueryContext where
  projectId : Option Int
  filterType : Option String
deriving DecidableEq, Repr

/-- `ProjectOptionResponse` (`shared/types.ts`). -/
structure ProjectOptionResponse where
  projectId : Int
  projectName : String
deriving DecidableEq, Repr

/-- The in-memory state and the durable memento of `StateService`. -/
structure StateServiceModel where
  stateEditData : Option (List (String × ReviewCommentItem))
  stateAddData : Option (List (String × ReviewCommentItem))
  stateQueryContext : Option QueryContext
  mementoEditData : Option (List (String × ReviewCommentItem))
  mementoAddData : Option (List (String × ReviewCommentItem))
  mementoQueryContext : Option QueryContext
deriving DecidableEq, Repr

/-- `StateService.setEditData`: write-through to state and memento. -/
def setEditData (editData : Option (List (String × ReviewCommentItem)))
    (svc : StateServiceModel) : StateServiceModel :=
  { svc with stateEditData := editData, mementoEditData := editData }

/-- `StateService.setQueryContext`: write-through to state and memento. -/
def setQueryContext (queryContext : Option QueryContext)
    (svc : StateServiceModel) : StateServiceModel :=
  { svc with stateQueryContext := queryContext,
             mementoQueryContext := queryContext }

/-- `StateService.clearAddData()` without an id: store the `null` sentinel in
state and memento. -/
def clearAddData (svc : StateServiceModel) : StateServiceModel :=
  { svc with stateAddData := none, mementoAddData := none }

/-- Modelled from the spec: `StateService.setAddData` is called by
`TableService.saveData` but its definition is not among the provided
sources (only `saveAddData`, the merging variant used by the save-comment
flow, is).  Per §4.3/§5 of the spec the additions map is persisted wholesale
after every mutation, so `setAddData` stores the given map in memory and in
durable storage. -/
def setAddData (addData : List (String × ReviewCommentItem))
    (svc : StateServiceModel) : StateServiceModel :=
  { svc with stateAddData := some addData, mementoAddData := some addData }

/-- `TableService.saveData`: persist the edit map (empty stored as `null`)
and the additions map (empty cleared to the `null` sentinel). -/
def saveData (editData addData : List (String × ReviewCommentItem))
    (svc : StateServiceModel) : StateServiceModel :=
  let editDataObject := if 0 < editData.length then some editData else none
  let svc1 := setEditData editDataObject svc
  let addDataObject := if 0 < addData.length then some addData else none
  match addDataObject with
  | some o => setAddData o svc1
  | none => clearAddData svc1

/-- **C7.** One `saveData` call persists both maps: afterwards state and
durable storage both hold the new edit map and the new additions map (empty
maps stored as the `null` sentinel), never the new value of only one of
them; the query context is untouched. -/
theorem saveData_transactional
    (editData addData : List (String × ReviewCommentItem))
    (svc : StateServiceModel) :
    ((saveData editData addData svc).stateEditData =
        (if editData = [] then none else some editData) ∧
      (saveData editData addData svc).mementoEditData =
        (if editData = [] then none else some editData)) ∧
    ((saveData editData addData svc).stateAddData =
        (if addData = [] then none else some addData) ∧
      (saveData editData addData svc).mementoAddData =
        (if addData = [] then none else some addData)) ∧
    (saveData editData addData svc).stateQueryContext =
      svc.stateQueryContext ∧
    (saveData editData addData svc).mementoQueryContext =
      svc.mementoQueryContext := by
  cases editData <;> cases addData <;>
    simp [saveData, setEditData, setAddData, clearAddData]

/-- `TableService.loadQueryComments`: the list received from the HTTP
collaborator is handed to callers reversed (`toReversed`). -/
def loadQueryComments (serverComments : List ReviewCommentItem) :
    List ReviewCommentItem :=
  serverComments.reverse

/-- The slice of the initial-table payload the claims are about. -/
structure InitialTableData where
  comments : List ReviewCommentItem
  queryContext : Option QueryContext
deriving DecidableEq, Repr

/-- `TableService.loadGetInitialTable`: revalidate the persisted query
context against the fresh project list (resetting the whole context object
when its project id is gone), then fetch comments via
`loadQueryComments`. -/
def loadGetInitialTable (storedQC : Option QueryContext)
    (projects : List ProjectOptionResponse)
    (serverComments : List ReviewCommentItem) (svc : StateServiceModel) :
    InitialTableData × StateServiceModel :=
  let check : Option QueryContext × StateServiceModel :=
    match storedQC with
    | some qc =>
      match qc.projectId with
      | some pid =>
        if projects.any (fun p => p.projectId == pid) then (storedQC, svc)
        else (none, setQueryContext none svc)
      | none => (storedQC, svc)
    | none => (storedQC, svc)
  ({ comments := loadQueryComments serverComments,
     queryContext := check.1 }, check.2)

/-- **C9.** Every successful comments query delivers the element-wise
reversal of the HTTP collaborator's list (latest first): same length,
element `i` of the delivered list is element `n-1-i` of the server list, and
the initial-table load hands exactly that reversed list to its callers. -/
theorem loadQueryComments_delivers_reversal
    (l : List ReviewCommentItem) (storedQC : Option QueryContext)
    (projects : List ProjectOptionResponse) (svc : StateServiceModel)
    (i : Nat) (h : i < l.length) :
    (loadQueryComments l).length = l.length ∧
    (loadQueryComments l).get? i = l.get? (l.length - 1 - i) ∧
    (loadGetInitialTable storedQC projects l svc).1.comments =
      loadQueryComments l := by
  refine ⟨by simp [loadQueryComments], ?_, rfl⟩
  unfold loadQueryComments
  rw [List.get?_reverse (by simpa using h)]

/-- Witness for C9 at a concrete input. -/
theorem loadQueryComments_delivers_reversal_witness :
    (loadQueryComments [sampleRec1, sampleRecN1]).length =
      [sampleRec1, sampleRecN1].length ∧
    (loadQueryComments [sampleRec1, sampleRecN1]).get? 0 =
      [sampleRec1, sampleRecN1].get? ([sampleRec1, sampleRecN1].length - 1 - 0) ∧
    (loadGetInitialTable none [] [sampleRec1, sampleRecN1]
        ⟨none, none, none, none, none, none⟩).1.comments =
      loadQueryComments [sampleRec1, sampleRecN1] :=
  loadQueryComments_delivers_reversal [sampleRec1, sampleRecN1] none []
    ⟨none, none, none, none, none, none⟩ 0 (by decide)

/-- **C10.** During initial-table load, a persisted query context whose
project id is missing from the fresh project list is reset to `null` as a
whole — in memory and in durable storage, discarding `filterType` too —
while a context whose project id is still present is left unchanged (and the
service state untouched). -/
theorem loadGetInitialTable_queryContext_revalidation
    (c : QueryContext) (pid : Int) (projects : List ProjectOptionResponse)
    (serverComments : List ReviewCommentItem) (svc : StateServiceModel)
    (hpid : c.projectId = some pid) :
    (projects.all (fun p => !(p.projectId == pid)) = true →
      (loadGetInitialTable (some c) projects serverComments svc).1.queryContext
          = none ∧
      (loadGetInitialTable (some c) projects serverComments
          svc).2.stateQueryContext = none ∧
      (loadGetInitialTable (some c) projects serverComments
          svc).2.mementoQueryContext = none ∧
      (loadGetInitialTable (some c) projects serverComments
          svc).2.stateEditData = svc.stateEditData ∧
      (loadGetInitialTable (some c) projects serverComments
          svc).2.stateAddData = svc.stateAddData) ∧
    (projects.any (fun p => p.projectId == pid) = true →
      (loadGetInitialTable (some c) projects serverComments svc).1.queryContext
          = some c ∧
      (loadGetInitialTable (some c) projects serverComments svc).2 = svc) := by
  constructor
  · intro hall
    have hany : projects.any (fun p => p.projectId == pid) = false := by
      rw [← Bool.not_eq_true, List.any_eq_true]
      rintro ⟨p, hp, hpb⟩
      have := List.all_eq_true.mp hall p hp
      rw [hpb] at this
      exact absurd this (by decide)
    simp [loadGetInitialTable, hpid, hany, setQueryContext]
  · intro hany
    simp [loadGetInitialTable, hpid, hany]

/-- Witness for C10 at concrete inputs (one missing-project case, one
present-project case, packed into the same project list would conflict, so
the witness uses the missing case and discharges the second implication
vacuously-constructively via the theorem). -/
theorem loadGetInitialTable_queryContext_revalidation_witness :
    ([(⟨7, "p7"⟩ : ProjectOptionResponse)].all
        (fun p => !(p.projectId == (3 : Int))) = true →
      (loadGetInitialTable (some ⟨some 3, some "all"⟩) [⟨7, "p7"⟩] []
          ⟨none, none, some ⟨some 3, some "all"⟩, none, none,
            some ⟨some 3, some "all"⟩⟩).1.queryContext = none ∧
      (loadGetInitialTable (some ⟨some 3, some "all"⟩) [⟨7, "p7"⟩] []
          ⟨none, none, some ⟨some 3, some "all"⟩, none, none,
            some ⟨some 3, some "all"⟩⟩).2.stateQueryContext = none ∧
      (loadGetInitialTable (some ⟨some 3, some "all"⟩) [⟨7, "p7"⟩] []
          ⟨none, none, some ⟨some 3, some "all"⟩, none, none,
            some ⟨some 3, some "all"⟩⟩).2.mementoQueryContext = none ∧
      (loadGetInitialTable (some ⟨some 3, some "all"⟩) [⟨7, "p7"⟩] []
          ⟨none, none, some ⟨some 3, some "all"⟩, none, none,
            some ⟨some 3, some "all"⟩⟩).2.stateEditData = none ∧
      (loadGetInitialTable (some ⟨some 3, some "all"⟩) [⟨7, "p7"⟩] []
          ⟨none, none, some ⟨some 3, some "all"⟩, none, none,
            some ⟨some 3, some "all"⟩⟩).2.stateAddData = none) ∧
    ([(⟨7, "p7"⟩ : ProjectOptionResponse)].any
        (fun p => p.projectId == (3 : Int)) = true →
      (loadGetInitialTable (some ⟨some 3, some "all"⟩) [⟨7, "p7"⟩] []
          ⟨none, none, some ⟨some 3, some "all"⟩, none, none,
            some ⟨some 3, some "all"⟩⟩).1.queryContext =
        some ⟨some 3, some "all"⟩ ∧
      (loadGetInitialTable (some ⟨some 3, some "all"⟩) [⟨7, "p7"⟩] []
          ⟨none, none, some ⟨some 3, some "all"⟩, none, none,
            some ⟨some 3, some "all"⟩⟩).2 =
        ⟨none, none, some ⟨some 3, some "all"⟩, none, none,
          some ⟨some 3, some "all"⟩⟩) :=
  loadGetInitialTable_queryContext_revalidation ⟨some 3, some "all"⟩ 3
    [⟨7, "p7"⟩] [] ⟨none, none, some ⟨some 3, some "all"⟩, none, none,
      some ⟨some 3, some "all"⟩⟩ rfl

/-! ## C8: `buildDecorationOptions` (`ReviewViewProvider.ts`)

Each related decoration item is classified by its `confirmResult` value:
`Modified`/`Rejected` are skipped, `ToModify` goes to the amber list, any
other value goes to the default (unconfirmed) list.  The source loops over
the item's parsed ranges pushing `(range, hover)` pairs; the per-item
contribution is factored out as `itemOptions`. -/

/-- `EnumConfirmResult.Modified` (`shared/constants.ts`). -/
def confirmResultModified : String := "2"

/-- `EnumConfirmResult.ToModify`. -/
def confirmResultToModify : String := "3"

/-- `EnumConfirmResult.Rejected`. -/
def confirmResultRejected : String := "4"

/-- `EnumConfirmResult.Unconfirmed`. -/
def confirmResultUnconfirmed : String := "unconfirmed"

/-- A decoration item: the projection of a merged record used for
annotations (`filePath`/`lineRange` non-empty by construction upstream,
`status` is the raw `confirmResult` value, possibly absent). -/
structure DecorationItem where
  filePath : String
  lineRange : String
  hover : String
  status : Option String
deriving DecidableEq, Repr

/-- `it.status === EnumConfirmResult.Modified || it.status ===
EnumConfirmResult.Rejected` — the Hidden tier. -/
def statusHidden (s : Option String) : Bool :=
  s == some confirmResultModified || s == some confirmResultRejected

/-- `it.status === EnumConfirmResult.ToModify` — the Amber tier. -/
def statusAmber (s : Option String) : Bool :=
  s == some confirmResultToModify

/-- The `(range, hover)` pairs one item contributes to the two option
lists (default-tier first, amber-tier second). -/
def itemOptions (lineCount : Int) (it : DecorationItem) :
    List ((Int × Int) × String) × List ((Int × Int) × String) :=
  let ranges := parseRangesForDocument lineCount it.lineRange
  if statusHidden it.status then ([], [])
  else if statusAmber it.status then
    ([], ranges.map (fun r => (r, it.hover)))
  else (ranges.map (fun r => (r, it.hover)), [])

/-- `buildDecorationOptions`: the default-tier and amber-tier option lists
for one document, accumulated over the related items in order. -/
def buildDecorationOptions (lineCount : Int) :
    List DecorationItem →
    List ((Int × Int) × String) × List ((Int × Int) × String)
  | [] => ([], [])
  | it :: rest =>
    let head := itemOptions lineCount it
    let tail := buildDecorationOptions lineCount rest
    (head.1 ++ tail.1, head.2 ++ tail.2)

/-- Counterexample to C8 as stated: two related items with identical range
text and hover but different tiers (`ToModify` vs absent) put the same
`(range, hover)` element into both the amber and the default set, so the two
sets are not disjoint. -/
theorem buildDecorationOptions_sets_not_disjoint :
    ((0, 0), "h") ∈ (buildDecorationOptions 10
      [⟨"a.ts", "1", "h", some "3"⟩, ⟨"a.ts", "1", "h", none⟩]).1 ∧
    ((0, 0), "h") ∈ (buildDecorationOptions 10
      [⟨"a.ts", "1", "h", some "3"⟩, ⟨"a.ts", "1", "h", none⟩]).2 := by
  decide

/-- **C8 (amended).** The projector classifies every related item by
`confirmResult` — `Modified`/`Rejected` contribute to neither set,
`ToModify` contributes its ranges to the amber set only, anything else
(including unconfirmed) to the default set only — and the two sets are
disjoint whenever no default-tier item shares its hover text with an
amber-tier item (they need not be when two distinct candidates of different
tiers produce an identical range and hover). -/
theorem buildDecorationOptions_classification (lineCount : Int)
    (items : List DecorationItem)
    (hhover : ∀ i ∈ items, ∀ j ∈ items, statusAmber i.status = true →
      (statusHidden j.status = false ∧ statusAmber j.status = false) →
      i.hover ≠ j.hover) :
    (buildDecorationOptions lineCount items).1 =
      (items.filter (fun it =>
        !statusHidden it.status && !statusAmber it.status)).bind
        (fun it => (parseRangesForDocument lineCount it.lineRange).map
          (fun r => (r, it.hover))) ∧
    (buildDecorationOptions lineCount items).2 =
      (items.filter (fun it => statusAmber it.status)).bind
        (fun it => (parseRangesForDocument lineCount it.lineRange).map
          (fun r => (r, it.hover))) ∧
    (∀ x ∈ (buildDecorationOptions lineCount items).1,
      x ∉ (buildDecorationOptions lineCount items).2) := by
  have hchar : ∀ (l : List DecorationItem),
      (buildDecorationOptions lineCount l).1 =
        (l.filter (fun it =>
          !statusHidden it.status && !statusAmber it.status)).bind
          (fun it => (parseRangesForDocument lineCount it.lineRange).map
            (fun r => (r, it.hover))) ∧
      (buildDecorationOptions lineCount l).2 =
        (l.filter (fun it => statusAmber it.status)).bind
          (fun it => (parseRangesForDocument lineCount it.lineRange).map
            (fun r => (r, it.hover))) := by
    intro l
    induction l with
    | nil => exact ⟨rfl, rfl⟩
    | cons it rest ih =>
      simp only [buildDecorationOptions, List.filter_cons]
      cases hh : statusHidden it.status with
      | true =>
        have ha : statusAmber it.status = false := by
          unfold statusHidden at hh
          unfold statusAmber
          rcases Bool.or_eq_true_iff.mp hh with h2 | h4
          · rw [beq_iff_eq] at h2
            rw [h2]
            decide
          · rw [beq_iff_eq] at h4
            rw [h4]
            decide
        simp only [itemOptions, hh, if_true, ha, Bool.not_true,
          Bool.false_and, Bool.false_eq_true, if_false, List.nil_append]
        exact ih
      | false =>
        cases ha : statusAmber it.status with
        | true =>
          simp only [itemOptions, hh, ha, Bool.false_eq_true, if_false,
            if_true, Bool.not_false, Bool.not_true, Bool.true_and,
            List.nil_append, List.cons_bind]
          exact ⟨ih.1, by rw [ih.2]⟩
        | false =>
          simp only [itemOptions, hh, ha, Bool.false_eq_true, if_false,
            Bool.not_false, Bool.true_and, if_true, List.nil_append,
            List.cons_bind]
          exact ⟨by rw [ih.1], ih.2⟩
  refine ⟨(hchar items).1, (hchar items).2, ?_⟩
  intro x hx hx2
  rw [(hchar items).1] at hx
  rw [(hchar items).2] at hx2
  rw [List.mem_bind] at hx hx2
  obtain ⟨j, hjmem, hjx⟩ := hx
  obtain ⟨i, himem, hix⟩ := hx2
  rw [List.mem_filter] at hjmem himem
  rw [List.mem_map] at hjx hix
  obtain ⟨rj, _, hrj⟩ := hjx
  obtain ⟨ri, _, hri⟩ := hix
  have hji : j.hover = i.hover := by
    have h1 : x.2 = j.hover := by rw [← hrj]
    have h2 : x.2 = i.hover := by rw [← hri]
    rw [← h1, h2]
  have hbool := Bool.and_eq_true_iff.mp hjmem.2
  refine hhover i himem.1 j hjmem.1 himem.2 ⟨?_, ?_⟩ hji.symm
  · simpa using hbool.1
  · simpa using hbool.2

/-- Witness for the amended C8 at a concrete input: one `ToModify` item and
one unconfirmed item with distinct hovers. -/
theorem buildDecorationOptions_classification_witness :
    (buildDecorationOptions 10
        [⟨"a.ts", "1", "ha", some "3"⟩, ⟨"a.ts", "2", "hd", none⟩]).1 =
      ([⟨"a.ts", "1", "ha", some "3"⟩,
        (⟨"a.ts", "2", "hd", none⟩ : DecorationItem)].filter (fun it =>
        !statusHidden it.status && !statusAmber it.status)).bind
        (fun it => (parseRangesForDocument 10 it.lineRange).map
          (fun r => (r, it.hover))) ∧
    (buildDecorationOptions 10
        [⟨"a.ts", "1", "ha", some "3"⟩, ⟨"a.ts", "2", "hd", none⟩]).2 =
      ([⟨"a.ts", "1", "ha", some "3"⟩,
        (⟨"a.ts", "2", "hd", none⟩ : DecorationItem)].filter (fun it =>
        statusAmber it.status)).bind
        (fun it => (parseRangesForDocument 10 it.lineRange).map
          (fun r => (r, it.hover))) ∧
    (∀ x ∈ (buildDecorationOptions 10
        [⟨"a.ts", "1", "ha", some "3"⟩, ⟨"a.ts", "2", "hd", none⟩]).1,
      x ∉ (buildDecorationOptions 10
        [⟨"a.ts", "1", "ha", some "3"⟩, ⟨"a.ts", "2", "hd", none⟩]).2) :=
  buildDecorationOptions_classification 10
    [⟨"a.ts", "1", "ha", some "3"⟩, ⟨"a.ts", "2", "hd", none⟩] (by decide)

/-! ## C6: the identifier generator (`createUniqueId`, `shared/types.ts`)

`createUniqueId` concatenates a 13-digit zero-padded timestamp component —
`(Date.now() - 1600000000000) % 10^13`, or `"0000000000000"` when the
subtraction is negative — with the 6-digit zero-padded per-millisecond
sequence counter.  Numbers are rendered with JS `Number.prototype.toString`
(modelled by `natRepr`) and `String.prototype.padStart`. -/

/-- Decimal representation of a natural number, most-significant digit
first, with explicit fuel (always sufficient at `n + 1`). -/
def natRepr (fuel n : Nat) : List Char :=
  match fuel with
  | 0 => []
  | fuel + 1 =>
    if n < 10 then [Nat.digitChar n]
    else natRepr fuel (n / 10) ++ [Nat.digitChar (n % 10)]

/-- JS `n.toString()` for a non-negative number. -/
def jsToString (n : Nat) : List Char := natRepr (n + 1) n

/-- JS `s.padStart(w, c)` (returns `s` unchanged when already long
enough). -/
def padStart (w : Nat) (c : Char) (s : List Char) : List Char :=
  List.replicate (w - s.length) c ++ s

/-- `transformTimestamp`: the 13-digit timestamp component. -/
def transformTimestamp (timestamp : Int) : List Char :=
  let baseTime : Int := 1600000000000
  let adjustedTime := timestamp - baseTime
  if adjustedTime < 0 then "0000000000000".toList
  else padStart 13 '0' (jsToString (adjustedTime.toNat % 10000000000000))

/-- The module-level generator state (`sequenceCounter`, `lastTimestamp`). -/
structure IdGenState where
  sequenceCounter : Nat
  lastTimestamp : Int
deriving DecidableEq, Repr

/-- The initial module state. -/
def initIdGenState : IdGenState := ⟨0, 0⟩

/-- One `createUniqueId()` call at clock reading `now`: update the
per-millisecond sequence counter, then emit the 19-character id. -/
def createUniqueId (now : Int) (st : IdGenState) : List Char × IdGenState :=
  let st' : IdGenState :=
    if now = st.lastTimestamp then
      { st with sequenceCounter := st.sequenceCounter + 1 }
    else { sequenceCounter := 0, lastTimestamp := now }
  let transformedTimestamp := transformTimestamp now
  let sequenceNum := padStart 6 '0' (jsToString st'.sequenceCounter)
  (transformedTimestamp ++ sequenceNum, st')

/-- Run the generator over a list of clock readings. -/
def runIdGen : List Int → IdGenState → List (List Char)
  | [], _ => []
  | t :: ts, st =>
    let (id, st') := createUniqueId t st
    id :: runIdGen ts st'

/-- Strict lexicographic comparison on character lists (the comparison JS
`<` performs on strings). -/
def lexLt : List Char → List Char → Bool
  | [], [] => false
  | [], _ :: _ => true
  | _ :: _, [] => false
  | a :: as, b :: bs =>
    if a.toNat < b.toNat then true
    else if b.toNat < a.toNat then false
    else lexLt as bs

/-- All adjacent pairs strictly increasing under `lexLt`. -/
def strictIncr : List (List Char) → Bool
  | [] => true
  | [_] => true
  | a :: b :: rest => lexLt a b && strictIncr (b :: rest)

/-- `ts` is non-decreasing. -/
def nonDecreasing : List Int → Bool
  | [] => true
  | [_] => true
  | a :: b :: rest => decide (a ≤ b) && nonDecreasing (b :: rest)

/-- The per-call sequence counters the generator will use, starting from a
given `lastTimestamp`/`sequence` pair (spec-side reconstruction). -/
def seqsOf : List Int → Int → Nat → List Nat
  | [], _, _ => []
  | t :: ts, last, s =>
    let s' := if t = last then s + 1 else 0
    s' :: seqsOf ts t s'

/-! ### Decimal-representation lemmas -/

theorem natRepr_fuel : ∀ f₁ f₂ n : Nat, n < f₁ → n < f₂ →
    natRepr f₁ n = natRepr f₂ n := by
  intro f₁
  induction f₁ with
  | zero => intro f₂ n h₁ _; exact absurd h₁ (Nat.not_lt_zero n)
  | succ a ih =>
    intro f₂ n h₁ h₂
    cases f₂ with
    | zero => exact absurd h₂ (Nat.not_lt_zero n)
    | succ b =>
      show natRepr (a + 1) n = natRepr (b + 1) n
      unfold natRepr
      by_cases hn : n < 10
      · rw [if_pos hn, if_pos hn]
      · rw [if_neg hn, if_neg hn]
        congr 1
        have hd : n / 10 < n := Nat.div_lt_self (by omega) (by omega)
        exact ih b (n / 10) (by omega) (by omega)

theorem jsToString_eq (n : Nat) :
    jsToString n = if n < 10 then [Nat.digitChar n]
      else jsToString (n / 10) ++ [Nat.digitChar (n % 10)] := by
  unfold jsToString
  show natRepr (n + 1) n = _
  unfold natRepr
  by_cases hn : n < 10
  · rw [if_pos hn, if_pos hn]
  · rw [if_neg hn, if_neg hn]
    congr 1
    have hd : n / 10 < n := Nat.div_lt_self (by omega) (by omega)
    exact natRepr_fuel n (n / 10 + 1) (n / 10) (by omega) (by omega)

theorem jsToString_length_le (n : Nat) : ∀ w : Nat, 1 ≤ w → n < 10 ^ w →
    (jsToString n).length ≤ w := by
  induction n using Nat.strong_induction_on with
  | _ n ih =>
    intro w hw hn
    rw [jsToString_eq]
    by_cases h10 : n < 10
    · rw [if_pos h10]
      simpa using hw
    · rw [if_neg h10]
      rw [List.length_append]
      have hw2 : 2 ≤ w := by
        rcases Nat.lt_or_ge w 2 with hcon | h
        · have hw1 : w = 1 := by omega
          subst hw1
          simp only [pow_one] at hn
          omega
        · exact h
      have hpow : (10 : Nat) ^ w = 10 ^ (w - 1) * 10 := by
        rw [← pow_succ]
        congr 1
        omega
      have hdiv : n / 10 < 10 ^ (w - 1) := by
        rw [Nat.div_lt_iff_lt_mul (by omega)]
        rw [← hpow]
        exact hn
      have hlen := ih (n / 10) (Nat.div_lt_self (by omega) (by omega))
        (w - 1) (by omega) hdiv
      simp only [List.length_cons, List.length_nil]
      omega

/-- Spec-side fixed-width digits: the `w` least-significant decimal digits
of `n`, most significant first ("the `w`-digit zero-padded value"). -/
def padFixed : Nat → Nat → List Char
  | 0, _ => []
  | w + 1, n => Nat.digitChar (n / 10 ^ w % 10) :: padFixed w n

theorem padFixed_length (w n : Nat) : (padFixed w n).length = w := by
  induction w generalizing n with
  | zero => rfl
  | succ v ih => simp [padFixed, ih]

theorem padFixed_succ_append (w : Nat) : ∀ n : Nat,
    padFixed (w + 1) n = padFixed w (n / 10) ++ [Nat.digitChar (n % 10)] := by
  induction w with
  | zero =>
    intro n
    show [Nat.digitChar (n / 10 ^ 0 % 10)] = [] ++ [Nat.digitChar (n % 10)]
    simp
  | succ v ih =>
    intro n
    show Nat.digitChar (n / 10 ^ (v + 1) % 10) :: padFixed (v + 1) n =
      Nat.digitChar (n / 10 / 10 ^ v % 10) :: padFixed v (n / 10) ++
        [Nat.digitChar (n % 10)]
    rw [ih n]
    rw [Nat.div_div_eq_div_mul, ← pow_succ']
    rfl

theorem padFixed_mod (w : Nat) : ∀ n : Nat,
    padFixed w (n % 10 ^ w) = padFixed w n := by
  induction w with
  | zero => intro n; rfl
  | succ v ih =>
    intro n
    unfold padFixed
    congr 1
    · rw [show (10 : Nat) ^ (v + 1) = 10 ^ v * 10 from pow_succ 10 v]
      rw [Nat.mod_mul_right_div_self]
      rw [Nat.mod_mod_of_dvd _ dvd_rfl]
    · rw [← ih (n % 10 ^ (v + 1))]
      rw [Nat.mod_mod_of_dvd _ (pow_dvd_pow 10 (by omega))]
      rw [ih]

theorem jsToString_eq_padFixed_exact : ∀ w n : Nat, 10 ^ w ≤ n →
    n < 10 ^ (w + 1) → jsToString n = padFixed (w + 1) n := by
  intro w
  induction w with
  | zero =>
    intro n h1 h2
    rw [pow_succ, pow_zero, one_mul] at h2
    rw [jsToString_eq, if_pos h2]
    show _ = [Nat.digitChar (n / 10 ^ 0 % 10)]
    rw [pow_zero, Nat.div_one, Nat.mod_eq_of_lt h2]
  | succ v ih =>
    intro n h1 h2
    have hge10 : 10 ≤ n := by
      have h10 : (10 : Nat) ≤ 10 ^ (v + 1) := by
        calc (10 : Nat) = 10 ^ 1 := (pow_one 10).symm
        _ ≤ 10 ^ (v + 1) := Nat.pow_le_pow_right (by omega) (by omega)
      omega
    rw [jsToString_eq, if_neg (by omega)]
    rw [padFixed_succ_append]
    congr 1
    apply ih
    · rw [Nat.le_div_iff_mul_le (by omega)]
      rw [← pow_succ]
      exact h1
    · rw [Nat.div_lt_iff_lt_mul (by omega)]
      rw [← pow_succ]
      exact h2

/-- Bridge: for `n < 10^w` the source's `toString().padStart(w, '0')` is
exactly the `w`-digit zero-padded representation. -/
theorem padStart_jsToString_eq_padFixed : ∀ w n : Nat, 1 ≤ w → n < 10 ^ w →
    padStart w '0' (jsToString n) = padFixed w n := by
  intro w
  induction w with
  | zero => intro n h; omega
  | succ v ih =>
    intro n _ hn
    by_cases hv : v = 0
    · subst hv
      rw [pow_succ, pow_zero, one_mul] at hn
      rw [jsToString_eq, if_pos hn]
      show padStart 1 '0' [Nat.digitChar n] = [Nat.digitChar (n / 10 ^ 0 % 10)]
      rw [pow_zero, Nat.div_one, Nat.mod_eq_of_lt hn]
      rfl
    · rcases Nat.lt_or_ge n (10 ^ v) with hlow | hhigh
      · have hlen : (jsToString n).length ≤ v :=
          jsToString_length_le n v (by omega) hlow
        have hrepl : (v + 1) - (jsToString n).length =
            ((v - (jsToString n).length) + 1 : Nat) := by omega
        unfold padStart
        rw [hrepl, List.replicate_succ, List.cons_append]
        have htail := ih n (by omega) hlow
        unfold padStart at htail
        rw [htail]
        have hdiv0 : n / 10 ^ v = 0 := Nat.div_eq_of_lt hlow
        show ('0' : Char) :: padFixed v n =
          Nat.digitChar (n / 10 ^ v % 10) :: padFixed v n
        rw [hdiv0]
        rfl
      · have hexact := jsToString_eq_padFixed_exact v n hhigh hn
        unfold padStart
        rw [hexact, padFixed_length, Nat.sub_self]
        simp

/-! ### Lexicographic lemmas -/

theorem digitChar_strict_mono : ∀ a b : Fin 10, a < b →
    (Nat.digitChar a).toNat < (Nat.digitChar b).toNat := by decide

theorem digitChar_isDigit : ∀ a : Fin 10,
    (Nat.digitChar a).isDigit = true := by decide

theorem padFixed_mem_isDigit (w : Nat) : ∀ (n : Nat), ∀ c ∈ padFixed w n,
    c.isDigit = true := by
  induction w with
  | zero => intro n c hc; simp [padFixed] at hc
  | succ v ih =>
    intro n c hc
    rcases List.mem_cons.mp hc with h | h
    · subst h
      exact digitChar_isDigit ⟨n / 10 ^ v % 10, Nat.mod_lt _ (by omega)⟩
    · exact ih n c h

theorem lexLt_padFixed : ∀ (w a b : Nat), a < b → b < 10 ^ w →
    lexLt (padFixed w a) (padFixed w b) = true := by
  intro w
  induction w with
  | zero =>
    intro a b hab hb
    simp only [pow_zero] at hb
    omega
  | succ v ih =>
    intro a b hab hb
    have hb10 : b / 10 ^ v < 10 := by
      rw [Nat.div_lt_iff_lt_mul (by positivity)]
      rw [← pow_succ']
      exact hb
    have ha10 : a / 10 ^ v < 10 := by
      rw [Nat.div_lt_iff_lt_mul (by positivity)]
      rw [← pow_succ']
      omega
    show lexLt (Nat.digitChar (a / 10 ^ v % 10) :: padFixed v a)
      (Nat.digitChar (b / 10 ^ v % 10) :: padFixed v b) = true
    rw [Nat.mod_eq_of_lt ha10, Nat.mod_eq_of_lt hb10]
    unfold lexLt
    rcases Nat.lt_trichotomy (a / 10 ^ v) (b / 10 ^ v) with hlt | heq | hgt
    · rw [if_pos (digitChar_strict_mono ⟨_, ha10⟩ ⟨_, hb10⟩ hlt)]
    · rw [heq]
      rw [if_neg (lt_irrefl _)]
      rw [if_neg (lt_irrefl _)]
      rw [← padFixed_mod v a, ← padFixed_mod v b]
      apply ih
      · have hda := Nat.div_add_mod a (10 ^ v)
        have hdb := Nat.div_add_mod b (10 ^ v)
        rw [heq] at hda
        omega
      · exact Nat.mod_lt _ (by positivity)
    · have hle : a / 10 ^ v ≤ b / 10 ^ v :=
        Nat.div_le_div_right (by omega)
      omega

theorem lexLt_append_of_lexLt : ∀ (x y u v : List Char),
    x.length = y.length → lexLt x y = true →
    lexLt (x ++ u) (y ++ v) = true := by
  intro x
  induction x with
  | nil =>
    intro y u v hlen h
    cases y with
    | nil => simp [lexLt] at h
    | cons b bs => simp at hlen
  | cons a as ih =>
    intro y u v hlen h
    cases y with
    | nil => simp at hlen
    | cons b bs =>
      simp only [List.cons_append]
      unfold lexLt at h ⊢
      by_cases h1 : a.toNat < b.toNat
      · rw [if_pos h1]
      · rw [if_neg h1] at h ⊢
        by_cases h2 : b.toNat < a.toNat
        · rw [if_pos h2] at h
          exact absurd h (by decide)
        · rw [if_neg h2] at h ⊢
          exact ih bs u v (by simpa using hlen) h

theorem lexLt_append_same : ∀ (x u v : List Char),
    lexLt (x ++ u) (x ++ v) = lexLt u v := by
  intro x
  induction x with
  | nil => intro u v; rfl
  | cons a as ih =>
    intro u v
    simp only [List.cons_append]
    show (if a.toNat < a.toNat then true
      else if a.toNat < a.toNat then false
      else lexLt (as ++ u) (as ++ v)) = lexLt u v
    rw [if_neg (lt_irrefl _)]
    rw [if_neg (lt_irrefl _)]
    exact ih u v

/-! ### The generator in closed form -/

/-- With all clock readings at or after the baseline and all per-millisecond
counters below `10^6`, each generated id is exactly the 13-digit zero-padded
timestamp component concatenated with the 6-digit zero-padded counter. -/
theorem runIdGen_eq_zip : ∀ (ts : List Int) (last : Int) (s : Nat),
    (∀ t ∈ ts, (1600000000000 : Int) ≤ t) →
    (∀ q ∈ seqsOf ts last s, q < 1000000) →
    runIdGen ts ⟨s, last⟩ =
      List.zipWith (fun t q =>
        padFixed 13 ((t - 1600000000000).toNat % 10000000000000) ++
          padFixed 6 q) ts (seqsOf ts last s) := by
  intro ts
  induction ts with
  | nil => intro last s _ _; rfl
  | cons t rest ih =>
    intro last s hbase hseq
    have hbt : (1600000000000 : Int) ≤ t := hbase t (List.mem_cons_self _ _)
    have hqmem : (if t = last then s + 1 else 0) ∈ seqsOf (t :: rest) last s := by
      show _ ∈ (if t = last then s + 1 else 0) ::
        seqsOf rest t (if t = last then s + 1 else 0)
      exact List.mem_cons_self _ _
    have hqlt : (if t = last then s + 1 else 0) < 1000000 := hseq _ hqmem
    have htrans : transformTimestamp t =
        padFixed 13 ((t - 1600000000000).toNat % 10000000000000) := by
      unfold transformTimestamp
      rw [if_neg (by omega)]
      exact padStart_jsToString_eq_padFixed 13 _ (by omega)
        (by
          have h10 : (10 : Nat) ^ 13 = 10000000000000 := by norm_num
          rw [h10]
          exact Nat.mod_lt _ (by norm_num))
    have hpad6 : padStart 6 '0' (jsToString (if t = last then s + 1 else 0)) =
        padFixed 6 (if t = last then s + 1 else 0) :=
      padStart_jsToString_eq_padFixed 6 _ (by omega)
        (by
          have h6 : (10 : Nat) ^ 6 = 1000000 := by norm_num
          rw [h6]
          exact hqlt)
    have htail : ∀ q' ∈ seqsOf rest t (if t = last then s + 1 else 0),
        q' < 1000000 := by
      intro q' hq'
      apply hseq
      show _ ∈ (if t = last then s + 1 else 0) ::
        seqsOf rest t (if t = last then s + 1 else 0)
      exact List.mem_cons_of_mem _ hq'
    have hbase' : ∀ t' ∈ rest, (1600000000000 : Int) ≤ t' :=
      fun t' ht' => hbase t' (List.mem_cons_of_mem _ ht')
    by_cases ht : t = last
    · subst ht
      simp only [eq_self_iff_true, if_true] at hqlt hpad6 htail
      simp only [runIdGen, createUniqueId, seqsOf, eq_self_iff_true, if_true,
        List.zipWith_cons_cons]
      rw [htrans]
      rw [show ({ sequenceCounter := s, lastTimestamp := t } :
          IdGenState).sequenceCounter + 1 = s + 1 from rfl]
      rw [hpad6]
      congr 1
      exact ih t (s + 1) hbase' htail
    · simp only [if_neg ht] at hqlt hpad6 htail
      simp only [runIdGen, createUniqueId, seqsOf, if_neg ht,
        List.zipWith_cons_cons]
      rw [htrans, hpad6]
      congr 1
      exact ih t 0 hbase' htail

theorem mem_zipWith_exists {α β γ : Type} (f : α → β → γ) :
    ∀ (l₁ : List α) (l₂ : List β) (x : γ), x ∈ List.zipWith f l₁ l₂ →
      ∃ a b, x = f a b := by
  intro l₁
  induction l₁ with
  | nil => intro l₂ x h; simp at h
  | cons a as ih =>
    intro l₂ x h
    cases l₂ with
    | nil => simp at h
    | cons b bs =>
      simp only [List.zipWith_cons_cons, List.mem_cons] at h
      rcases h with h | h
      · exact ⟨a, b, h⟩
      · exact ih bs x h

theorem strictIncr_zip : ∀ (ts : List Int) (last : Int) (s : Nat),
    nonDecreasing ts = true →
    (∀ t ∈ ts, (1600000000000 : Int) ≤ t ∧
      t < 1600000000000 + 10000000000000) →
    (∀ q ∈ seqsOf ts last s, q < 1000000) →
    strictIncr (List.zipWith (fun t q =>
      padFixed 13 ((t - 1600000000000).toNat % 10000000000000) ++
        padFixed 6 q) ts (seqsOf ts last s)) = true := by
  intro ts
  induction ts with
  | nil => intros; rfl
  | cons t1 rest ih =>
    intro last s hmono hrange hseq
    cases rest with
    | nil => rfl
    | cons t2 rest2 =>
      have hq1mem : (if t1 = last then s + 1 else 0) ∈
          seqsOf (t1 :: t2 :: rest2) last s := by
        show _ ∈ (if t1 = last then s + 1 else 0) :: _
        exact List.mem_cons_self _ _
      have hq1lt := hseq _ hq1mem
      have hq2mem : (if t2 = t1 then (if t1 = last then s + 1 else 0) + 1
          else 0) ∈ seqsOf (t1 :: t2 :: rest2) last s := by
        show _ ∈ (if t1 = last then s + 1 else 0) ::
          (if t2 = t1 then (if t1 = last then s + 1 else 0) + 1 else 0) :: _
        exact List.mem_cons_of_mem _ (List.mem_cons_self _ _)
      have hq2lt := hseq _ hq2mem
      have h12 : t1 ≤ t2 := by
        have : (decide (t1 ≤ t2) && nonDecreasing (t2 :: rest2)) = true := hmono
        rw [Bool.and_eq_true] at this
        exact of_decide_eq_true this.1
      have hmono2 : nonDecreasing (t2 :: rest2) = true := by
        have : (decide (t1 ≤ t2) && nonDecreasing (t2 :: rest2)) = true := hmono
        rw [Bool.and_eq_true] at this
        exact this.2
      have hr1 := hrange t1 (List.mem_cons_self _ _)
      have hr2 := hrange t2 (List.mem_cons_of_mem _ (List.mem_cons_self _ _))
      have hrange2 : ∀ t ∈ t2 :: rest2, (1600000000000 : Int) ≤ t ∧
          t < 1600000000000 + 10000000000000 :=
        fun t hti => hrange t (List.mem_cons_of_mem _ hti)
      have hseq2 : ∀ q ∈ seqsOf (t2 :: rest2) t1
          (if t1 = last then s + 1 else 0), q < 1000000 := by
        intro q hq
        apply hseq
        show _ ∈ (if t1 = last then s + 1 else 0) ::
          seqsOf (t2 :: rest2) t1 (if t1 = last then s + 1 else 0)
        exact List.mem_cons_of_mem _ hq
      show (lexLt _ _ && strictIncr _) = true
      rw [Bool.and_eq_true]
      constructor
      · -- adjacent pair comparison
        by_cases he : t2 = t1
        · subst he
          simp only [eq_self_iff_true, if_true]
          rw [lexLt_append_same]
          apply lexLt_padFixed 6
          · omega
          · have h6 : (10 : Nat) ^ 6 = 1000000 := by norm_num
            rw [h6]
            simpa using hq2lt
        · have hlt : t1 < t2 := by
            rcases lt_or_eq_of_le h12 with h | h
            · exact h
            · exact absurd h.symm he
          have hm1 : (t1 - 1600000000000).toNat % 10000000000000 =
              (t1 - 1600000000000).toNat := Nat.mod_eq_of_lt (by omega)
          have hm2 : (t2 - 1600000000000).toNat % 10000000000000 =
              (t2 - 1600000000000).toNat := Nat.mod_eq_of_lt (by omega)
          apply lexLt_append_of_lexLt
          · rw [padFixed_length, padFixed_length]
          · rw [hm1, hm2]
            apply lexLt_padFixed 13
            · omega
            · have h13 : (10 : Nat) ^ 13 = 10000000000000 := by norm_num
              rw [h13]
              omega
      · exact ih t1 (if t1 = last then s + 1 else 0) hmono2 hrange2 hseq2

/-- Counterexample to C6 as stated: two calls under non-decreasing clock
readings (both before the 2020-09-13 baseline, where the generator emits the
all-zero timestamp component and resets the counter) produce the identical
id, so the id sequence is not strictly increasing. -/
theorem createUniqueId_not_strictly_increasing :
    nonDecreasing [100, 200] = true ∧
    strictIncr (runIdGen [100, 200] initIdGenState) = false := by
  decide

/-- **C6 (amended).** For non-decreasing clock readings that lie in
`[1600000000000, 1600000000000 + 10^13)` and drive every per-millisecond
sequence counter below `10^6`, the generator yields ids of exactly 19 ASCII
digits, strictly increasing under lexicographic comparison, each equal to
the 13-digit zero-padded value of `now - 1600000000000` (mod `10^13`)
concatenated with the 6-digit zero-padded sequence counter. -/
theorem createUniqueId_monotonicity (ts : List Int)
    (hmono : nonDecreasing ts = true)
    (hrange : ∀ t ∈ ts, (1600000000000 : Int) ≤ t ∧
      t < 1600000000000 + 10000000000000)
    (hseq : ∀ q ∈ seqsOf ts 0 0, q < 1000000) :
    (∀ id ∈ runIdGen ts initIdGenState,
      id.length = 19 ∧ ∀ c ∈ id, c.isDigit = true) ∧
    strictIncr (runIdGen ts initIdGenState) = true ∧
    runIdGen ts initIdGenState =
      List.zipWith (fun t q =>
        padFixed 13 ((t - 1600000000000).toNat % 10000000000000) ++
          padFixed 6 q) ts (seqsOf ts 0 0) := by
  have hzip : runIdGen ts initIdGenState =
      List.zipWith (fun t q =>
        padFixed 13 ((t - 1600000000000).toNat % 10000000000000) ++
          padFixed 6 q) ts (seqsOf ts 0 0) :=
    runIdGen_eq_zip ts 0 0 (fun t ht => (hrange t ht).1) hseq
  refine ⟨?_, ?_, hzip⟩
  · intro id hid
    rw [hzip] at hid
    obtain ⟨t, q, hfq⟩ := mem_zipWith_exists _ _ _ id hid
    subst hfq
    constructor
    · rw [List.length_append, padFixed_length, padFixed_length]
    · intro c hc
      rcases List.mem_append.mp hc with h | h
      · exact padFixed_mem_isDigit 13 _ c h
      · exact padFixed_mem_isDigit 6 _ c h
  · rw [hzip]
    exact strictIncr_zip ts 0 0 hmono hrange hseq

/-- Witness for the amended C6 at concrete clock readings: two calls in the
same millisecond, one in the next. -/
theorem createUniqueId_monotonicity_witness :
    (∀ id ∈ runIdGen [1600000000123, 1600000000123, 1600000000124]
        initIdGenState, id.length = 19 ∧ ∀ c ∈ id, c.isDigit = true) ∧
    strictIncr (runIdGen [1600000000123, 1600000000123, 1600000000124]
      initIdGenState) = true ∧
    runIdGen [1600000000123, 1600000000123, 1600000000124] initIdGenState =
      List.zipWith (fun t q =>
        padFixed 13 ((t - 1600000000000).toNat % 10000000000000) ++
          padFixed 6 q)
        ([1600000000123, 1600000000123, 1600000000124] : List Int)
        (seqsOf [1600000000123, 1600000000123, 1600000000124] 0 0) :=
  createUniqueId_monotonicity [1600000000123, 1600000000123, 1600000000124]
    (by decide) (by decide) (by decide)

end CoReview
